import Mathlib

/-!
Shallow embedding of the dijkstra-rs library (src/lib.rs).

The Rust code is a single file: a `Graph` owning a `HashMap<VertexId, Vertex>`,
where `VertexId` wraps a `char`, a `Vertex` carries its own outgoing edge list,
and an `Edge` is a target id plus a `u32` weight.  Two shortest-path routines
operate on a graph and a start `Vertex`:

* `dijkstra_heap` — lazy-deletion Dijkstra over a `BinaryHeap` of
  `State { cost, vertex }` ordered by reversed cost, keeping a
  `HashMap<VertexId, (u32, Vec<VertexId>)>` of distance and path;
* `dijkstra_no_heap` — a linear scan: repeatedly visit the current vertex,
  relax its edges, then pick the unvisited graph vertex of minimal known
  distance (`u32::MAX` standing for infinity).

Modelling decisions:
* `u32` becomes `Nat`; every addition the Rust code performs on `u32` is
  modelled with an explicit `% 4294967296`, i.e. release-mode wrapping
  semantics (in debug builds the same additions panic on overflow).
* `HashMap` / `HashSet` become association lists / lists of keys.  Insertion
  replaces in place or appends; lookup takes the first match.
* `BinaryHeap` becomes a list; `push` appends, `pop` removes the first
  minimal-cost element.  This fixes one deterministic refinement of the
  unspecified tie order among equal costs.
* Both Rust functions are declared to return `()`: the computed `distances`
  maps are locals that are dropped.  `dijkstra_heap_ret` / `dijkstra_no_heap_ret`
  embed those (unit) return values, while `dijkstra_heap` / `dijkstra_no_heap`
  expose the internal distance tables the loops build, which is what the
  specification's properties quantify over.
-/

namespace DijkstraRs

/-- Vertex identifier: the Rust `VertexId(pub char)`. -/
abbrev VertexId := Char

/-- A directed weighted arc: Rust `Edge { to: VertexId, weight: u32 }`.
The `u32` weight is a `Nat`; arithmetic on it is wrapped mod 2^32 explicitly. -/
structure Edge where
  «to» : VertexId
  weight : Nat
deriving DecidableEq, Repr

/-- Rust `Vertex { id: VertexId, edges: Vec<Edge> }`. -/
structure Vertex where
  id : VertexId
  edges : List Edge
deriving DecidableEq, Repr

/-- Rust `Graph { vertices: HashMap<VertexId, Vertex> }`, as an association
list (first match wins on lookup, insertion replaces in place or appends). -/
structure Graph where
  vertices : List (VertexId × Vertex)
deriving DecidableEq, Repr

/-- 2^32: the modulus of `u32` arithmetic. -/
def U32MOD : Nat := 4294967296

/-- `u32::MAX`, the sentinel the Rust code uses for an unknown distance. -/
def U32MAX : Nat := 4294967295

/-- First-match association-list lookup (model of `HashMap::get`). -/
def alookup {α : Type} (l : List (VertexId × α)) (k : VertexId) : Option α :=
  match l with
  | [] => none
  | (k', v) :: rest => if k' = k then some v else alookup rest k

/-- Association-list insert (model of `HashMap::insert`): replaces the first
binding of the key in place, or appends a new binding. -/
def ainsert {α : Type} (l : List (VertexId × α)) (k : VertexId) (v : α) :
    List (VertexId × α) :=
  match l with
  | [] => [(k, v)]
  | (k', v') :: rest =>
    if k' = k then (k, v) :: rest else (k', v') :: ainsert rest k v

/-- Rust `Graph::new()`. -/
def Graph.new : Graph := ⟨[]⟩

/-- Rust `Graph::add_vertex`: clones the vertex and inserts it under its id
(last write wins). -/
def Graph.add_vertex (g : Graph) (v : Vertex) : Graph :=
  ⟨ainsert g.vertices v.id v⟩

/-- Rust `State { cost: u32, vertex: Vertex }`, the priority-queue element;
its `Ord` reverses cost comparison so the max-heap pops minimal cost. -/
structure State where
  cost : Nat
  vertex : Vertex
deriving DecidableEq, Repr

/-- Model of `BinaryHeap::pop` on the list of live queue entries: removes the
first element of minimal cost (one deterministic refinement of the heap's
unspecified order among equal costs). -/
def popMin : List State → Option (State × List State)
  | [] => none
  | s :: rest =>
    match popMin rest with
    | none => some (s, [])
    | some (m, rest') =>
      if s.cost ≤ m.cost then some (s, rest) else some (m, s :: rest')

/-- Distance table of `dijkstra_heap`:
`HashMap<VertexId, (u32, Vec<VertexId>)>`. -/
abbrev DistMap := List (VertexId × (Nat × List VertexId))

/-- One iteration of the relaxation loop body of `dijkstra_heap`
(lib.rs lines 81-98) for a single edge `e` of the just-visited vertex `cid`
popped at cost `cost`; the accumulator is the pair (distances, queue). -/
def relaxOne (g : Graph) (cid : VertexId) (cost : Nat)
    (acc : DistMap × List State) (e : Edge) : DistMap × List State :=
  match alookup g.vertices e.«to» with
  | none => acc
  | some next =>
    let current_path := ((alookup acc.1 cid).getD (0, [])).2
    let distance := (cost + e.weight) % U32MOD
    let old := alookup acc.1 e.«to»
    if distance < ((old.map Prod.fst).getD U32MAX) ∨ old = none then
      (ainsert acc.1 e.«to» (distance, current_path ++ [e.«to»]),
       acc.2 ++ [⟨distance, next⟩])
    else acc

/-- The whole `for neighbor in &current_vertex.edges` loop of `dijkstra_heap`. -/
def relaxEdges (g : Graph) (cid : VertexId) (cost : Nat) (edges : List Edge)
    (dist : DistMap) (queue : List State) : DistMap × List State :=
  edges.foldl (relaxOne g cid cost) (dist, queue)

/-- Loop state of `dijkstra_heap`: the graph behind `&mut self`, the priority
queue, the distance table and the visited set. -/
structure HState where
  graph : Graph
  queue : List State
  dist : DistMap
  visited : List VertexId
deriving Repr

/-- The `while let Some(State { .. }) = priority_queue.pop()` loop of
`dijkstra_heap` (lib.rs lines 76-99), fuel-indexed.  Stale entries whose
vertex is already visited are discarded (lazy deletion). -/
def heapGo : Nat → HState → HState
  | 0, st => st
  | fuel + 1, st =>
    match popMin st.queue with
    | none => st
    | some (s, q) =>
      if s.vertex.id ∈ st.visited then
        heapGo fuel { st with queue := q }
      else
        let res := relaxEdges st.graph s.vertex.id s.cost s.vertex.edges st.dist q
        heapGo fuel
          { graph := st.graph, queue := res.2, dist := res.1,
            visited := s.vertex.id :: st.visited }

/-- Total number of edges the run can ever push from: the start argument's
edges plus every stored vertex's edges. -/
def edgeCount (g : Graph) (s : Vertex) : Nat :=
  s.edges.length + (g.vertices.map (fun p => p.2.edges.length)).sum

/-- Fuel bound for the heap loop: every iteration pops one entry, and at most
`1 + edgeCount` entries are ever pushed (each vertex is expanded once). -/
def heapFuel (g : Graph) (s : Vertex) : Nat := edgeCount g s + 2

/-- Initial loop state of `dijkstra_heap` (lib.rs lines 68-74): distance 0 and
path `[start]` for the start id, the queue holding `(0, start)`. -/
def heapInit (g : Graph) (s : Vertex) : HState :=
  { graph := g, queue := [⟨0, s⟩], dist := [(s.id, (0, [s.id]))], visited := [] }

/-- Final loop state of `dijkstra_heap`. -/
def heapFinal (g : Graph) (s : Vertex) : HState :=
  heapGo (heapFuel g s) (heapInit g s)

/-- The internal `distances` table `dijkstra_heap` has computed when its loop
exits (the Rust function then drops it and returns `()`). -/
def dijkstra_heap (g : Graph) (s : Vertex) : DistMap :=
  (heapFinal g s).dist

/-- The value `Graph::dijkstra_heap` actually returns to its caller: the Rust
signature is `pub fn dijkstra_heap(&mut self, start: Vertex)`, i.e. unit. -/
def dijkstra_heap_ret (_g : Graph) (_s : Vertex) : Unit := ()

/-- One relaxation of `dijkstra_no_heap` (lib.rs lines 116-122) for edge `e`
of the current vertex whose known distance is `cd`.  Note: unlike the heap
variant, there is no check that `e.«to»` is present in the graph. -/
def relaxScanOne (dist : List (VertexId × Nat)) (cd : Nat) (e : Edge) :
    List (VertexId × Nat) :=
  let d := (cd + e.weight) % U32MOD
  if d < (alookup dist e.«to»).getD U32MAX then ainsert dist e.«to» d else dist

/-- Model of `.min_by_key(...)` over the filtered vertex list: the first
element of minimal known distance (ties go to the earlier entry, one
deterministic refinement of the unspecified `HashMap` iteration order). -/
def minByDist (l : List (VertexId × Vertex)) (dist : List (VertexId × Nat)) :
    Option Vertex :=
  match l with
  | [] => none
  | (_, v) :: rest =>
    match minByDist rest dist with
    | none => some v
    | some w =>
      if (alookup dist v.id).getD U32MAX ≤ (alookup dist w.id).getD U32MAX then
        some v
      else some w

/-- The next-vertex selection of `dijkstra_no_heap` (lib.rs lines 124-128):
the unvisited stored vertex with the smallest known distance. -/
def nextVertex (g : Graph) (dist : List (VertexId × Nat))
    (visited : List VertexId) : Option Vertex :=
  minByDist (g.vertices.filter (fun p => ¬ p.2.id ∈ visited)) dist

/-- Loop state of `dijkstra_no_heap`. -/
structure SState where
  graph : Graph
  dist : List (VertexId × Nat)
  visited : List VertexId
  current : Vertex
deriving Repr

/-- The `while visited.len() < graph_size` loop of `dijkstra_no_heap`
(lib.rs lines 111-134), fuel-indexed: mark the current vertex visited, read
its known distance (`u32::MAX` when absent), relax its edges, then move to
the unvisited stored vertex of minimal known distance, stopping when none
is left. -/
def scanGo : Nat → SState → SState
  | 0, st => st
  | fuel + 1, st =>
    if st.visited.length < st.graph.vertices.length then
      let visited' :=
        if st.current.id ∈ st.visited then st.visited else st.current.id :: st.visited
      let cd := (alookup st.dist st.current.id).getD U32MAX
      let dist' := st.current.edges.foldl (fun d e => relaxScanOne d cd e) st.dist
      match nextVertex st.graph dist' visited' with
      | some v => scanGo fuel { graph := st.graph, dist := dist', visited := visited', current := v }
      | none => { graph := st.graph, dist := dist', visited := visited', current := st.current }
    else st

/-- Fuel bound for the scan loop: each iteration marks a fresh vertex visited,
so at most `|vertices| + 1` iterations run. -/
def scanFuel (g : Graph) : Nat := g.vertices.length + 2

/-- Initial loop state of `dijkstra_no_heap` (lib.rs lines 103-109). -/
def scanInit (g : Graph) (s : Vertex) : SState :=
  { graph := g, dist := [(s.id, 0)], visited := [], current := s }

/-- Final loop state of `dijkstra_no_heap`. -/
def scanFinal (g : Graph) (s : Vertex) : SState :=
  scanGo (scanFuel g) (scanInit g s)

/-- The internal `distances` table `dijkstra_no_heap` has computed when its
loop exits (the Rust function then drops it and returns `()`). -/
def dijkstra_no_heap (g : Graph) (s : Vertex) : List (VertexId × Nat) :=
  (scanFinal g s).dist

/-- The value `Graph::dijkstra_no_heap` actually returns to its caller: the
Rust signature is `pub fn dijkstra_no_heap(&mut self, start: Vertex)`. -/
def dijkstra_no_heap_ret (_g : Graph) (_s : Vertex) : Unit := ()

end DijkstraRs

namespace DijkstraRs

/-! ### Concrete graphs used by the claims -/

/-- Vertex A of the specification's §8 concrete scenario. -/
def vA : Vertex := ⟨'a', [⟨'b', 1⟩, ⟨'c', 4⟩]⟩

/-- Vertex B of the §8 concrete scenario. -/
def vB : Vertex := ⟨'b', [⟨'c', 2⟩, ⟨'d', 5⟩]⟩

/-- Vertex C of the §8 concrete scenario. -/
def vC : Vertex := ⟨'c', [⟨'d', 1⟩]⟩

/-- Vertex D of the §8 concrete scenario. -/
def vD : Vertex := ⟨'d', []⟩

/-- The §8 concrete graph: edges A→B(1), A→C(4), B→C(2), B→D(5), C→D(1). -/
def g5 : Graph :=
  ((((Graph.new.add_vertex vA).add_vertex vB).add_vertex vC).add_vertex vD)

/-- A small two-vertex graph p→q(7) used to exhibit the discarded result. -/
def c1p : Vertex := ⟨'p', [⟨'q', 7⟩]⟩

/-- The isolated target vertex q of `g1`. -/
def c1q : Vertex := ⟨'q', []⟩

/-- Graph {p→q(7), q} used for claim C1. -/
def g1 : Graph := (Graph.new.add_vertex c1p).add_vertex c1q

/-- The §8 dangling-edge scenario vertex: a with an edge to the absent id z. -/
def c2a : Vertex := ⟨'a', [⟨'z', 9⟩]⟩

/-- The §8 dangling-edge graph: only vertex a, whose edge targets absent z. -/
def g2 : Graph := Graph.new.add_vertex c2a

/-- Start of the cross-algorithm disagreement graph: s→x(10). -/
def c3s : Vertex := ⟨'s', [⟨'x', 10⟩]⟩

/-- Sink vertex x of `g3`. -/
def c3x : Vertex := ⟨'x', []⟩

/-- Unreachable vertex b of `g3`, with edge b→x(5). -/
def c3b : Vertex := ⟨'b', [⟨'x', 5⟩]⟩

/-- Graph where the two algorithms disagree: s→x(10), and an unreachable b
whose edge b→x(5) the scan variant relaxes from the `u32::MAX` sentinel. -/
def g3 : Graph := ((Graph.new.add_vertex c3s).add_vertex c3x).add_vertex c3b

/-- Start vertex a (no edges) of the disconnected graph `g4`. -/
def c4a : Vertex := ⟨'a', []⟩

/-- Unreachable vertex b of `g4` with a self-loop b→b(1). -/
def c4b : Vertex := ⟨'b', [⟨'b', 1⟩]⟩

/-- Disconnected graph {a, b→b(1)} started at a: b is unreachable. -/
def g4 : Graph := (Graph.new.add_vertex c4a).add_vertex c4b

/-- Start of `g6`: s→u(5) and s→a(4294967295). -/
def c6s : Vertex := ⟨'s', [⟨'u', 5⟩, ⟨'a', 4294967295⟩]⟩

/-- Vertex u of `g6` with the zero-weight edge u→v(0). -/
def c6u : Vertex := ⟨'u', [⟨'v', 0⟩]⟩

/-- Sink vertex v of `g6`. -/
def c6v : Vertex := ⟨'v', []⟩

/-- Vertex a of `g6`, reached at cost `u32::MAX`, with edge a→u(5). -/
def c6a : Vertex := ⟨'a', [⟨'u', 5⟩]⟩

/-- Graph violating relaxation closure: after u is finalized at 5, expanding
a at cost `u32::MAX` wraps `MAX + 5` to 4 and lowers u below v's 5. -/
def g6 : Graph :=
  (((Graph.new.add_vertex c6s).add_vertex c6u).add_vertex c6v).add_vertex c6a

/-- Stored vertex a of `g7`: no outgoing edges. -/
def c7ga : Vertex := ⟨'a', []⟩

/-- Stored vertex b of `g7`. -/
def c7gb : Vertex := ⟨'b', []⟩

/-- Graph storing a (edgeless) and b, for the start-argument path claim. -/
def g7 : Graph := (Graph.new.add_vertex c7ga).add_vertex c7gb

/-- Start argument for `g7` sharing id a but carrying an edge a→b(1) that the
stored vertex a does not have. -/
def c7s : Vertex := ⟨'a', [⟨'b', 1⟩]⟩

/-- Vertex u of the permutation graphs, with u→v(0). -/
def c8u : Vertex := ⟨'u', [⟨'v', 0⟩]⟩

/-- Sink vertex v of the permutation graphs. -/
def c8v : Vertex := ⟨'v', []⟩

/-- Vertex a of the permutation graphs, with the huge edge a→u(4294967294). -/
def c8a : Vertex := ⟨'a', [⟨'u', 4294967294⟩]⟩

/-- Start s with edge list [u(5), a(5)]. -/
def c8s1 : Vertex := ⟨'s', [⟨'u', 5⟩, ⟨'a', 5⟩]⟩

/-- Start s with the permuted edge list [a(5), u(5)]. -/
def c8s2 : Vertex := ⟨'s', [⟨'a', 5⟩, ⟨'u', 5⟩]⟩

/-- Permutation graph storing s with edges [u(5), a(5)]. -/
def g8a : Graph :=
  (((Graph.new.add_vertex c8s1).add_vertex c8u).add_vertex c8v).add_vertex c8a

/-- The same graph with s's edge list permuted to [a(5), u(5)]. -/
def g8b : Graph :=
  (((Graph.new.add_vertex c8s2).add_vertex c8u).add_vertex c8v).add_vertex c8a

/-- Two stored edgeless vertices a and b, for the start-argument claims. -/
def g10 : Graph := (Graph.new.add_vertex ⟨'a', []⟩).add_vertex ⟨'b', []⟩

/-- Start argument with id a carrying an edge a→b(3) absent from the graph. -/
def s10a : Vertex := ⟨'a', [⟨'b', 3⟩]⟩

/-- Start argument with id a and no edges (matching the stored vertex a). -/
def s10b : Vertex := ⟨'a', []⟩

/-- Start argument whose id z is absent from the graph, with edge z→a(2). -/
def s10z : Vertex := ⟨'z', [⟨'a', 2⟩]⟩

end DijkstraRs

namespace DijkstraRs

/-! ### Claim theorems on concrete inputs -/

/-- C1: on the graph p→q(7) both loops do compute their full internal distance
tables, but the values the Rust functions return to the caller are the unit
value — `dijkstra_heap` and `dijkstra_no_heap` are declared without a return
type, so the tables are dropped and nothing is returned. -/
theorem heap_and_scan_tables_computed_but_dropped :
    dijkstra_heap g1 c1p = [('p', (0, ['p'])), ('q', (7, ['p', 'q']))] ∧
    dijkstra_no_heap g1 c1p = [('p', 0), ('q', 7)] ∧
    dijkstra_heap_ret g1 c1p = () ∧ dijkstra_no_heap_ret g1 c1p = () := by
  decide

/-- C2 counterexample: in the §8 dangling-edge scenario (vertex a with an edge
to the absent id z), the linear-scan algorithm does create a distance entry
for z — `dijkstra_no_heap` relaxes edges without checking graph membership. -/
theorem scan_creates_entry_for_absent_target :
    alookup g2.vertices 'z' = none ∧
    alookup (dijkstra_no_heap g2 c2a) 'z' = some 9 := by
  decide

/-- C3: the two algorithms disagree on x for `g3` started at s: the heap
variant never relaxes from the unreachable b, giving x distance 10, while the
scan variant visits b at the `u32::MAX` sentinel, wraps `MAX + 5` to 4, and
overwrites x with 4. -/
theorem algorithms_disagree_on_x :
    alookup (dijkstra_heap g3 c3s) 'x' = some (10, ['s', 'x']) ∧
    alookup (dijkstra_no_heap g3 c3s) 'x' = some 4 := by
  decide

/-- C4: on the disconnected graph `g4` (b unreachable, with self-loop of
weight 1), the scan variant selects b at the infinite sentinel and its
relaxation wraps `u32::MAX + 1` to 0, creating the entry b ↦ 0; the heap
variant leaves b absent. -/
theorem scan_relaxes_from_infinite_sentinel :
    alookup (dijkstra_no_heap g4 c4a) 'b' = some 0 ∧
    alookup (dijkstra_heap g4 c4a) 'b' = none := by
  decide

/-- C5: on the §8 concrete graph started at A, both algorithms compute
distance A=0, B=1, C=3, D=4, and the queue variant records
path [A, B, C, D] for D. -/
theorem concrete_scenario_results :
    alookup (dijkstra_heap g5 vA) 'a' = some (0, ['a']) ∧
    alookup (dijkstra_heap g5 vA) 'b' = some (1, ['a', 'b']) ∧
    alookup (dijkstra_heap g5 vA) 'c' = some (3, ['a', 'b', 'c']) ∧
    alookup (dijkstra_heap g5 vA) 'd' = some (4, ['a', 'b', 'c', 'd']) ∧
    dijkstra_no_heap g5 vA = [('a', 0), ('b', 1), ('c', 3), ('d', 4)] := by
  decide

/-- C6: relaxation closure fails on `g6`: u is reachable (edge s→u(5) with
s the start), the graph has the edge u→v(0), yet the heap variant's final
table has u ↦ 4 and v ↦ 5, so distance v exceeds distance u + 0.  The 4 for
u arises after u's finalization at 5, when a is expanded at cost `u32::MAX`
and `MAX + 5` wraps to 4. -/
theorem relaxation_closure_violated :
    alookup g6.vertices 'u' = some c6u ∧
    (⟨'v', 0⟩ : Edge) ∈ c6u.edges ∧
    (⟨'u', 5⟩ : Edge) ∈ c6s.edges ∧
    alookup (dijkstra_heap g6 c6s) 'u' = some (4, ['s', 'a', 'u']) ∧
    alookup (dijkstra_heap g6 c6s) 'v' = some (5, ['s', 'u', 'v']) := by
  decide

/-- C7 counterexample: started on `g7` with the argument vertex a carrying an
edge a→b(1) that the stored vertex a does not have, the heap variant records
the path [a, b] for b, whose consecutive pair is not an edge of the Graph
(the stored a has an empty edge list). -/
theorem path_not_along_graph_edges :
    alookup (dijkstra_heap g7 c7s) 'b' = some (1, ['a', 'b']) ∧
    alookup g7.vertices 'a' = some c7ga ∧ c7ga.edges = [] := by
  decide

/-- C8 counterexample: `g8b`/`c8s2` is `g8a`/`c8s1` with s's edge list
permuted (same stored ids), yet the heap variant's final distance table
changes: v ↦ 5 under one order and v ↦ 3 under the other, because the
permutation swaps which equal-cost entry is popped first and the wrapped
relaxation from a lowers u after (respectively before) u's expansion. -/
theorem heap_table_changes_under_edge_permutation :
    c8s1.id = c8s2.id ∧ c8s1.edges.Perm c8s2.edges ∧
    g8a.vertices.map Prod.fst = g8b.vertices.map Prod.fst ∧
    alookup (dijkstra_heap g8a c8s1) 'v' = some (5, ['s', 'u', 'v']) ∧
    alookup (dijkstra_heap g8b c8s2) 'v' = some (3, ['s', 'a', 'u', 'v']) := by
  decide

/-- C10: both algorithms read the start's edges from the passed-in argument:
on the graph `g10` (stored a and b edgeless), the two start arguments `s10a`
(a with edge a→b(3)) and `s10b` (a with no edges) give different distance
tables in both algorithms, and with the start id z absent from the graph the
computation still runs and produces a table. -/
theorem start_edges_come_from_argument :
    dijkstra_heap g10 s10a ≠ dijkstra_heap g10 s10b ∧
    dijkstra_no_heap g10 s10a ≠ dijkstra_no_heap g10 s10b ∧
    dijkstra_heap g10 s10a = [('a', (0, ['a'])), ('b', (3, ['a', 'b']))] ∧
    dijkstra_heap g10 s10z = [('z', (0, ['z'])), ('a', (2, ['z', 'a']))] ∧
    dijkstra_no_heap g10 s10z = [('z', 0), ('a', 2)] := by
  decide

end DijkstraRs

namespace DijkstraRs

/-! ### Association-list lemmas -/

theorem alookup_ainsert_self {α : Type} (l : List (VertexId × α)) (k : VertexId) (v : α) :
    alookup (ainsert l k v) k = some v := by
  induction l with
  | nil => simp [ainsert, alookup]
  | cons p rest ih =>
    obtain ⟨k', v'⟩ := p
    by_cases h : k' = k
    · simp [ainsert, h, alookup]
    · simp [ainsert, h, alookup, ih]

theorem alookup_ainsert_ne {α : Type} (l : List (VertexId × α)) (k k' : VertexId) (v : α)
    (h : k ≠ k') : alookup (ainsert l k v) k' = alookup l k' := by
  induction l with
  | nil => simp [ainsert, alookup, h]
  | cons p rest ih =>
    obtain ⟨k0, v0⟩ := p
    by_cases h0 : k0 = k
    · subst h0
      simp [ainsert, alookup, h, ih]
    · simp [ainsert, h0, alookup, ih]

theorem alookup_ainsert_cases {α : Type} {l : List (VertexId × α)} {k k' : VertexId}
    {v w : α} (h : alookup (ainsert l k v) k' = some w) :
    (k' = k ∧ w = v) ∨ (k' ≠ k ∧ alookup l k' = some w) := by
  by_cases hk : k' = k
  · subst hk
    rw [alookup_ainsert_self] at h
    exact Or.inl ⟨rfl, (Option.some_inj.mp h).symm⟩
  · rw [alookup_ainsert_ne l k k' v (fun he => hk he.symm)] at h
    exact Or.inr ⟨hk, h⟩

theorem mem_keys_of_alookup {α : Type} {l : List (VertexId × α)} {k : VertexId} {v : α}
    (h : alookup l k = some v) : k ∈ l.map Prod.fst := by
  induction l with
  | nil => simp [alookup] at h
  | cons p rest ih =>
    obtain ⟨k', v'⟩ := p
    by_cases hk : k' = k
    · subst hk
      simp
    · simp [alookup, hk] at h
      simp [ih h]

/-! ### The graph is never mutated (frame condition) -/

theorem heapGo_graph (fuel : Nat) (st : HState) :
    (heapGo fuel st).graph = st.graph := by
  induction fuel generalizing st with
  | zero => rfl
  | succ n ih =>
    show (heapGo (n + 1) st).graph = st.graph
    unfold heapGo
    cases h : popMin st.queue with
    | none => rfl
    | some p =>
      obtain ⟨s, q⟩ := p
      by_cases hv : s.vertex.id ∈ st.visited
      · simp only [hv, if_true]
        exact ih _
      · simp only [hv, if_false]
        exact ih _

theorem scanGo_graph (fuel : Nat) (st : SState) :
    (scanGo fuel st).graph = st.graph := by
  induction fuel generalizing st with
  | zero => rfl
  | succ n ih =>
    show (scanGo (n + 1) st).graph = st.graph
    unfold scanGo
    by_cases hc : st.visited.length < st.graph.vertices.length
    · simp only [hc, if_true]
      cases h : nextVertex st.graph
          (st.current.edges.foldl
            (fun d e => relaxScanOne d ((alookup st.dist st.current.id).getD U32MAX) e) st.dist)
          (if st.current.id ∈ st.visited then st.visited else st.current.id :: st.visited) with
      | none => rfl
      | some v => exact ih _
    · simp [hc]

end DijkstraRs

namespace DijkstraRs

/-! ### Heap distance keys: only the start id and stored ids ever get entries -/

/-- Every key of a heap distance table is the start id or a stored vertex id. -/
def heapKeysOk (g : Graph) (sid : VertexId) (dist : DistMap) : Prop :=
  ∀ k v, alookup dist k = some v → k = sid ∨ k ∈ g.vertices.map Prod.fst

theorem relaxOne_keys (g : Graph) (cid : VertexId) (cost : Nat) (sid : VertexId)
    (acc : DistMap × List State) (e : Edge) (h : heapKeysOk g sid acc.1) :
    heapKeysOk g sid (relaxOne g cid cost acc e).1 := by
  unfold relaxOne
  cases hg : alookup g.vertices e.«to» with
  | none => exact h
  | some next =>
    simp only
    by_cases hcond :
        ((cost + e.weight) % U32MOD <
          (((alookup acc.1 e.«to»).map Prod.fst).getD U32MAX) ∨
        alookup acc.1 e.«to» = none)
    · simp only [hcond, if_true]
      intro k v hk
      rcases alookup_ainsert_cases hk with ⟨hke, _⟩ | ⟨_, hold⟩
      · subst hke
        exact Or.inr (mem_keys_of_alookup hg)
      · exact h k v hold
    · simp only [hcond, if_false]
      exact h

theorem relaxEdges_keys (g : Graph) (cid : VertexId) (cost : Nat) (sid : VertexId) :
    ∀ (edges : List Edge) (acc : DistMap × List State), heapKeysOk g sid acc.1 →
      heapKeysOk g sid (edges.foldl (relaxOne g cid cost) acc).1 := by
  intro edges
  induction edges with
  | nil => intro acc h; exact h
  | cons e rest ih =>
    intro acc h
    exact ih (relaxOne g cid cost acc e) (relaxOne_keys g cid cost sid acc e h)

theorem heapGo_keys (sid : VertexId) :
    ∀ (fuel : Nat) (st : HState), heapKeysOk st.graph sid st.dist →
      heapKeysOk st.graph sid (heapGo fuel st).dist := by
  intro fuel
  induction fuel with
  | zero => intro st h; exact h
  | succ n ih =>
    intro st h
    show heapKeysOk st.graph sid (heapGo (n + 1) st).dist
    unfold heapGo
    cases hp : popMin st.queue with
    | none => exact h
    | some p =>
      obtain ⟨s, q⟩ := p
      by_cases hv : s.vertex.id ∈ st.visited
      · simp only [hv, if_true]
        exact ih { st with queue := q } h
      · simp only [hv, if_false]
        exact ih _ (relaxEdges_keys st.graph s.vertex.id s.cost sid s.vertex.edges (st.dist, q) h)

end DijkstraRs

namespace DijkstraRs

/-- C9: neither algorithm mutates the Graph: the graph component of the final
loop state of both `dijkstra_heap` and `dijkstra_no_heap` is the input graph,
for every graph and start vertex. -/
theorem graph_never_mutated (g : Graph) (s : Vertex) :
    (heapFinal g s).graph = g ∧ (scanFinal g s).graph = g :=
  ⟨heapGo_graph (heapFuel g s) (heapInit g s),
   scanGo_graph (scanFuel g) (scanInit g s)⟩

/-- C2 (amended): in the heap algorithm an edge whose target id is absent
from the graph is never relaxed — every key of its distance table is the
start id or a stored id, for every graph and start; the scan algorithm,
however, does create a distance entry for the absent target (in the §8
dangling-edge scenario its table is [(a, 0), (z, 9)]), though the absent id
is never expanded further and traversal completes, the heap table being
[(a, (0, [a]))]. -/
theorem absent_targets_skipped_by_heap_not_scan :
    (∀ (g : Graph) (s : Vertex) (k : VertexId) (v : Nat × List VertexId),
        alookup (dijkstra_heap g s) k = some v →
        k = s.id ∨ k ∈ g.vertices.map Prod.fst) ∧
    dijkstra_heap g2 c2a = [('a', (0, ['a']))] ∧
    dijkstra_no_heap g2 c2a = [('a', 0), ('z', 9)] := by
  refine ⟨?_, by decide, by decide⟩
  intro g s k v hk
  have hinit : heapKeysOk (heapInit g s).graph s.id (heapInit g s).dist := by
    intro k' v' hk'
    unfold heapInit at hk'
    simp only [alookup] at hk'
    by_cases h : s.id = k'
    · exact Or.inl h.symm
    · simp [h, alookup] at hk'
  have := heapGo_keys s.id (heapFuel g s) (heapInit g s) hinit
  exact this k v hk

/-- Witness for the amended C2: instantiating its universal part on the §8
graph shows b's entry key is a stored id. -/
theorem absent_targets_skipped_witness :
    ('b' : VertexId) = vA.id ∨ ('b' : VertexId) ∈ g5.vertices.map Prod.fst :=
  absent_targets_skipped_by_heap_not_scan.1 g5 vA 'b' (1, ['a', 'b']) (by decide)

end DijkstraRs

namespace DijkstraRs

/-! ### Paths through the stored graph -/

/-- The last id of a path that starts at `a` and continues through `p`. -/
def lastId (a : VertexId) : List VertexId → VertexId
  | [] => a
  | b :: rest => lastId b rest

theorem lastId_append_single (a t : VertexId) :
    ∀ p : List VertexId, lastId a (p ++ [t]) = t := by
  intro p
  induction p generalizing a with
  | nil => rfl
  | cons b rest ih => exact ih b

/-- `PathFrom g a d p`: starting at id `a`, the ids in `p` are reached through
consecutive stored edges of `g` whose weights sum (as unbounded naturals)
to `d`. -/
inductive PathFrom (g : Graph) : VertexId → Nat → List VertexId → Prop
  | nil (a : VertexId) : PathFrom g a 0 []
  | cons {a b : VertexId} {w d : Nat} {rest : List VertexId} {vx : Vertex} :
      alookup g.vertices a = some vx → (⟨b, w⟩ : Edge) ∈ vx.edges →
      PathFrom g b d rest → PathFrom g a (w + d) (b :: rest)

theorem PathFrom_snoc (g : Graph) {a : VertexId} {d : Nat} {p : List VertexId}
    (h : PathFrom g a d p) :
    ∀ {vx : Vertex} {t : VertexId} {w : Nat},
      alookup g.vertices (lastId a p) = some vx → (⟨t, w⟩ : Edge) ∈ vx.edges →
      PathFrom g a (d + w) (p ++ [t]) := by
  induction h with
  | nil a =>
    intro vx t w hvx hmem
    have : PathFrom g a (w + 0) [t] := PathFrom.cons hvx hmem (PathFrom.nil t)
    simpa using this
  | cons hvx0 hmem0 _h ih =>
    intro vx t w hvx hmem
    have h2 := ih hvx hmem
    have := PathFrom.cons hvx0 hmem0 h2
    rw [← Nat.add_assoc] at this
    simpa using this

/-! ### Maximal edge weight of the stored graph -/

/-- The largest edge weight stored anywhere in the graph. -/
def maxW (g : Graph) : Nat :=
  (g.vertices.map (fun p => (p.2.edges.map Edge.weight).foldr max 0)).foldr max 0

theorem le_foldr_max {a : Nat} : ∀ {l : List Nat}, a ∈ l → a ≤ l.foldr max 0 := by
  intro l
  induction l with
  | nil => intro h; cases h
  | cons b rest ih =>
    intro h
    rcases List.mem_cons.mp h with h | h
    · subst h
      exact Nat.le_max_left _ _
    · exact Nat.le_trans (ih h) (Nat.le_max_right _ _)

theorem alookup_mem {α : Type} : ∀ {l : List (VertexId × α)} {k : VertexId} {v : α},
    alookup l k = some v → (k, v) ∈ l := by
  intro l
  induction l with
  | nil => intro k v h; simp [alookup] at h
  | cons p rest ih =>
    intro k v h
    obtain ⟨k', v'⟩ := p
    by_cases hk : k' = k
    · subst hk
      simp [alookup] at h
      simp [h]
    · simp [alookup, hk] at h
      exact List.mem_cons_of_mem _ (ih h)

theorem edge_weight_le_maxW {g : Graph} {a : VertexId} {vx : Vertex} {e : Edge}
    (hvx : alookup g.vertices a = some vx) (hmem : e ∈ vx.edges) :
    e.weight ≤ maxW g := by
  have h1 : e.weight ≤ (vx.edges.map Edge.weight).foldr max 0 :=
    le_foldr_max (List.mem_map_of_mem Edge.weight hmem)
  have h2 : (vx.edges.map Edge.weight).foldr max 0 ≤ maxW g := by
    apply le_foldr_max
    have := alookup_mem hvx
    exact List.mem_map_of_mem (fun p => (p.2.edges.map Edge.weight).foldr max 0) this
  exact Nat.le_trans h1 h2

theorem PathFrom_weight_le {g : Graph} {a : VertexId} {d : Nat} {p : List VertexId}
    (h : PathFrom g a d p) : d ≤ p.length * maxW g := by
  induction h with
  | nil a => simp
  | @cons a b w d2 rest vx hvx hmem hp ih =>
    have hw : w ≤ maxW g := edge_weight_le_maxW hvx hmem
    calc w + d2 ≤ maxW g + rest.length * maxW g := Nat.add_le_add hw ih
    _ = (rest.length + 1) * maxW g := by rw [Nat.succ_mul, Nat.add_comm]
    _ = (b :: rest).length * maxW g := by rw [List.length_cons]

/-! ### popMin lemmas -/

theorem popMin_none : ∀ {q : List State}, popMin q = none → q = [] := by
  intro q
  cases q with
  | nil => intro _; rfl
  | cons a rest =>
    intro h
    unfold popMin at h
    cases h2 : popMin rest with
    | none => rw [h2] at h; simp at h
    | some p =>
      rw [h2] at h
      obtain ⟨m, r⟩ := p
      by_cases h3 : a.cost ≤ m.cost <;> simp [h3] at h

theorem popMin_mem_self : ∀ {q : List State} {s : State} {q' : List State},
    popMin q = some (s, q') → s ∈ q := by
  intro q
  induction q with
  | nil => intro s q' h; simp [popMin] at h
  | cons a rest ih =>
    intro s q' h
    unfold popMin at h
    cases hr : popMin rest with
    | none =>
      rw [hr] at h
      simp only [Option.some_inj, Prod.mk.injEq] at h
      simp [← h.1]
    | some p =>
      obtain ⟨m, rest'⟩ := p
      rw [hr] at h
      by_cases hle : a.cost ≤ m.cost
      · simp only [hle, if_true, Option.some_inj, Prod.mk.injEq] at h
        simp [← h.1]
      · simp only [hle, if_false, Option.some_inj, Prod.mk.injEq] at h
        exact List.mem_cons_of_mem _ (h.1 ▸ ih hr)

theorem popMin_min : ∀ {q : List State} {s : State} {q' : List State},
    popMin q = some (s, q') → ∀ x ∈ q, s.cost ≤ x.cost := by
  intro q
  induction q with
  | nil => intro s q' h; simp [popMin] at h
  | cons a rest ih =>
    intro s q' h x hx
    unfold popMin at h
    cases hr : popMin rest with
    | none =>
      rw [hr] at h
      simp only [Option.some_inj, Prod.mk.injEq] at h
      have hrest : rest = [] := popMin_none hr
      subst hrest
      simp at hx
      subst hx
      rw [← h.1]
    | some p =>
      obtain ⟨m, rest'⟩ := p
      rw [hr] at h
      by_cases hle : a.cost ≤ m.cost
      · simp only [hle, if_true, Option.some_inj, Prod.mk.injEq] at h
        rcases List.mem_cons.mp hx with hx | hx
        · rw [← h.1, hx]
        · exact h.1 ▸ Nat.le_trans hle (ih hr x hx)
      · simp only [hle, if_false, Option.some_inj, Prod.mk.injEq] at h
        rcases List.mem_cons.mp hx with hx | hx
        · rw [← h.1, hx]
          exact Nat.le_of_lt (Nat.lt_of_not_le hle)
        · exact h.1 ▸ ih hr x hx

theorem popMin_rest_subset : ∀ {q : List State} {s : State} {q' : List State},
    popMin q = some (s, q') → ∀ x ∈ q', x ∈ q := by
  intro q
  induction q with
  | nil => intro s q' h; simp [popMin] at h
  | cons a rest ih =>
    intro s q' h x hx
    unfold popMin at h
    cases hr : popMin rest with
    | none =>
      rw [hr] at h
      simp only [Option.some_inj, Prod.mk.injEq] at h
      rw [← h.2] at hx
      cases hx
    | some p =>
      obtain ⟨m, rest'⟩ := p
      rw [hr] at h
      by_cases hle : a.cost ≤ m.cost
      · simp only [hle, if_true, Option.some_inj, Prod.mk.injEq] at h
        rw [← h.2] at hx
        exact List.mem_cons_of_mem _ hx
      · simp only [hle, if_false, Option.some_inj, Prod.mk.injEq] at h
        rw [← h.2] at hx
        rcases List.mem_cons.mp hx with hx | hx
        · simp [hx]
        · exact List.mem_cons_of_mem _ (ih hr x hx)

theorem popMin_mem_or : ∀ {q : List State} {s : State} {q' : List State},
    popMin q = some (s, q') → ∀ x ∈ q, x = s ∨ x ∈ q' := by
  intro q
  induction q with
  | nil => intro s q' h; simp [popMin] at h
  | cons a rest ih =>
    intro s q' h x hx
    unfold popMin at h
    cases hr : popMin rest with
    | none =>
      rw [hr] at h
      simp only [Option.some_inj, Prod.mk.injEq] at h
      have hrest : rest = [] := popMin_none hr
      subst hrest
      simp at hx
      subst hx
      exact Or.inl h.1
    | some p =>
      obtain ⟨m, rest'⟩ := p
      rw [hr] at h
      by_cases hle : a.cost ≤ m.cost
      · simp only [hle, if_true, Option.some_inj, Prod.mk.injEq] at h
        rcases List.mem_cons.mp hx with hx | hx
        · exact Or.inl (hx.trans h.1)
        · exact Or.inr (h.2 ▸ hx)
      · simp only [hle, if_false, Option.some_inj, Prod.mk.injEq] at h
        rcases List.mem_cons.mp hx with hx | hx
        · refine Or.inr ?_
          rw [← h.2]
          simp [hx]
        · rcases ih hr x hx with he | he
          · exact Or.inl (he.trans h.1)
          · refine Or.inr ?_
            rw [← h.2]
            exact List.mem_cons_of_mem _ he

end DijkstraRs

namespace DijkstraRs

/-! ### The heap-loop invariant for path consistency -/

/-- Well-formed graph: every stored vertex carries its key as its id.  This
holds for every graph built through `Graph.add_vertex`, which inserts under
`vertex.id`. -/
def WFGraph (g : Graph) : Prop := ∀ p ∈ g.vertices, p.2.id = p.1

theorem WFGraph_alookup {g : Graph} {k : VertexId} {vx : Vertex}
    (hwf : WFGraph g) (h : alookup g.vertices k = some vx) : vx.id = k :=
  hwf (k, vx) (alookup_mem h)

/-- A distance-table entry is well-formed: its path starts at the start id,
ends at the entry's key, and follows stored edges whose weights sum to the
stored distance. -/
def EntryOk (g : Graph) (sid : VertexId) (v : VertexId) (d : Nat)
    (p : List VertexId) : Prop :=
  ∃ rest, p = sid :: rest ∧ lastId sid rest = v ∧ PathFrom g sid d rest

/-- Invariant of the heap loop: every distance entry is well-formed and of
bounded path length, every queue entry's id has a distance entry below its
cost and carries the graph's stored vertex, and every unvisited id with a
distance entry has a queue entry at exactly that distance. -/
structure HInv (g : Graph) (sid : VertexId) (used : Nat) (st : HState) : Prop where
  graph_eq : st.graph = g
  dist_ok : ∀ v d p, alookup st.dist v = some (d, p) →
    EntryOk g sid v d p ∧ p.length ≤ 1 + used
  queue_lb : ∀ qe ∈ st.queue, ∃ d p,
    alookup st.dist qe.vertex.id = some (d, p) ∧ d ≤ qe.cost
  queue_vx : ∀ qe ∈ st.queue, alookup g.vertices qe.vertex.id = some qe.vertex
  unvis : ∀ v d p, alookup st.dist v = some (d, p) → v ∉ st.visited →
    ∃ qe ∈ st.queue, qe.vertex.id = v ∧ qe.cost = d

theorem HInv_mono {g : Graph} {sid : VertexId} {used used' : Nat} {st : HState}
    (h : HInv g sid used st) (hle : used ≤ used') : HInv g sid used' st where
  graph_eq := h.graph_eq
  dist_ok := by
    intro v d p hv
    obtain ⟨h1, h2⟩ := h.dist_ok v d p hv
    exact ⟨h1, Nat.le_trans h2 (Nat.add_le_add_left hle 1)⟩
  queue_lb := h.queue_lb
  queue_vx := h.queue_vx
  unvis := h.unvis

/-- Invariant of the relaxation fold inside one expansion of vertex `u`,
popped at cost `c` with stored path `p_u`; `acc` is (distances, queue). -/
structure MidInv (g : Graph) (sid u : VertexId) (c : Nat) (p_u : List VertexId)
    (visited' : List VertexId) (used : Nat) (acc : DistMap × List State) : Prop where
  dist_ok : ∀ v d p, alookup acc.1 v = some (d, p) →
    EntryOk g sid v d p ∧ p.length ≤ 2 + used
  cur_stable : alookup acc.1 u = some (c, p_u)
  queue_lb : ∀ qe ∈ acc.2, ∃ d p,
    alookup acc.1 qe.vertex.id = some (d, p) ∧ d ≤ qe.cost
  queue_vx : ∀ qe ∈ acc.2, alookup g.vertices qe.vertex.id = some qe.vertex
  unvis : ∀ v d p, alookup acc.1 v = some (d, p) → v ∉ visited' →
    ∃ qe ∈ acc.2, qe.vertex.id = v ∧ qe.cost = d

theorem relaxOne_mid (g : Graph) (sid u : VertexId) (c : Nat) (p_u : List VertexId)
    (visited' : List VertexId) (used : Nat) (vert : Vertex)
    (hwf : WFGraph g)
    (hvx : alookup g.vertices u = some vert)
    (hpu : EntryOk g sid u c p_u)
    (hlen : p_u.length ≤ 1 + used)
    (hbound : (used + 1) * maxW g < U32MOD)
    (e : Edge) (hmem : e ∈ vert.edges)
    (acc : DistMap × List State)
    (hmid : MidInv g sid u c p_u visited' used acc) :
    MidInv g sid u c p_u visited' used (relaxOne g u c acc e) := by
  obtain ⟨rest_u, hrr, hlast, hpath⟩ := hpu
  have hclt : c + e.weight < U32MOD := by
    have h1 : c ≤ rest_u.length * maxW g := PathFrom_weight_le hpath
    have h2 : rest_u.length ≤ used := by
      have h0 := hlen
      rw [hrr] at h0
      simp only [List.length_cons] at h0
      omega
    have h3 : e.weight ≤ maxW g := edge_weight_le_maxW hvx hmem
    calc c + e.weight ≤ rest_u.length * maxW g + maxW g :=
          Nat.add_le_add h1 h3
    _ ≤ used * maxW g + maxW g :=
          Nat.add_le_add_right (Nat.mul_le_mul_right _ h2) _
    _ = (used + 1) * maxW g := by rw [Nat.succ_mul]
    _ < U32MOD := hbound
  have hmod : (c + e.weight) % U32MOD = c + e.weight := Nat.mod_eq_of_lt hclt
  cases hg : alookup g.vertices e.«to» with
  | none =>
    have hstep : relaxOne g u c acc e = acc := by
      unfold relaxOne
      rw [hg]
    rw [hstep]
    exact hmid
  | some next =>
    have hnid : next.id = e.«to» := WFGraph_alookup hwf hg
    have hstep : relaxOne g u c acc e =
        if (c + e.weight) % U32MOD <
            (((alookup acc.1 e.«to»).map Prod.fst).getD U32MAX) ∨
          alookup acc.1 e.«to» = none then
          (ainsert acc.1 e.«to»
            ((c + e.weight) % U32MOD, ((alookup acc.1 u).getD (0, [])).2 ++ [e.«to»]),
           acc.2 ++ [⟨(c + e.weight) % U32MOD, next⟩])
        else acc := by
      unfold relaxOne
      rw [hg]
    rw [hstep]
    by_cases hcond :
        ((c + e.weight) % U32MOD <
          (((alookup acc.1 e.«to»).map Prod.fst).getD U32MAX) ∨
        alookup acc.1 e.«to» = none)
    · rw [if_pos hcond]
      have hne : e.«to» ≠ u := by
        intro he
        rw [he, hmid.cur_stable] at hcond
        rcases hcond with hlt | hnone
        · rw [hmod] at hlt
          simp at hlt
        · exact Option.some_ne_none _ hnone
      have hpathD : ((alookup acc.1 u).getD (0, [])).2 = p_u := by
        rw [hmid.cur_stable]
        rfl
      rw [hpathD]
      constructor
      · -- dist_ok
        intro v d p hv
        rcases alookup_ainsert_cases hv with ⟨hveq, hweq⟩ | ⟨_, hold⟩
        · subst hveq
          have hd : d = c + e.weight := by
            have := congrArg Prod.fst hweq
            simpa [hmod] using this
          have hp : p = p_u ++ [e.«to»] := by
            exact congrArg Prod.snd hweq
          subst hd
          subst hp
          constructor
          · refine ⟨rest_u ++ [e.«to»], ?_, ?_, ?_⟩
            · rw [hrr]
              rfl
            · exact lastId_append_single sid e.«to» rest_u
            · have hvx' : alookup g.vertices (lastId sid rest_u) = some vert := by
                rw [hlast]
                exact hvx
              have hee : (⟨e.«to», e.weight⟩ : Edge) = e := rfl
              exact PathFrom_snoc g hpath hvx' (hee ▸ hmem)
          · rw [List.length_append, List.length_singleton]
            omega
        · obtain ⟨h1, h2⟩ := hmid.dist_ok v d p hold
          exact ⟨h1, h2⟩
      · -- cur_stable
        rw [alookup_ainsert_ne _ _ _ _ hne]
        exact hmid.cur_stable
      · -- queue_lb
        intro qe hqe
        rcases List.mem_append.mp hqe with hqe | hqe
        · obtain ⟨d, p, hdp, hle⟩ := hmid.queue_lb qe hqe
          by_cases hq : qe.vertex.id = e.«to»
          · rw [hq] at hdp
            refine ⟨c + e.weight, p_u ++ [e.«to»], ?_, ?_⟩
            · rw [hq]
              rw [alookup_ainsert_self, hmod]
            · rcases hcond with hlt | hnone
              · rw [hdp, hmod] at hlt
                simp at hlt
                exact Nat.le_trans (Nat.le_of_lt hlt) hle
              · rw [hdp] at hnone
                exact absurd hnone (Option.some_ne_none _)
          · refine ⟨d, p, ?_, hle⟩
            rw [alookup_ainsert_ne _ _ _ _ (fun he => hq he.symm)]
            exact hdp
        · simp only [List.mem_singleton] at hqe
          subst hqe
          refine ⟨c + e.weight, p_u ++ [e.«to»], ?_, ?_⟩
          · simp only [hnid]
            rw [alookup_ainsert_self, hmod]
          · simp [hmod]
      · -- queue_vx
        intro qe hqe
        rcases List.mem_append.mp hqe with hqe | hqe
        · exact hmid.queue_vx qe hqe
        · simp only [List.mem_singleton] at hqe
          subst hqe
          simp only [hnid]
          exact hg
      · -- unvis
        intro v d p hv hnv
        rcases alookup_ainsert_cases hv with ⟨hveq, hweq⟩ | ⟨hvne, hold⟩
        · subst hveq
          refine ⟨⟨(c + e.weight) % U32MOD, next⟩, ?_, ?_, ?_⟩
          · exact List.mem_append.mpr (Or.inr (List.mem_singleton.mpr rfl))
          · exact hnid
          · have := congrArg Prod.fst hweq
            simpa using this.symm
        · obtain ⟨qe, hqe, hqid, hqc⟩ := hmid.unvis v d p hold hnv
          exact ⟨qe, List.mem_append.mpr (Or.inl hqe), hqid, hqc⟩
    · rw [if_neg hcond]
      exact hmid

end DijkstraRs

namespace DijkstraRs

theorem relaxFold_mid (g : Graph) (sid u : VertexId) (c : Nat) (p_u : List VertexId)
    (visited' : List VertexId) (used : Nat) (vert : Vertex)
    (hwf : WFGraph g)
    (hvx : alookup g.vertices u = some vert)
    (hpu : EntryOk g sid u c p_u)
    (hlen : p_u.length ≤ 1 + used)
    (hbound : (used + 1) * maxW g < U32MOD) :
    ∀ (edges : List Edge), (∀ e ∈ edges, e ∈ vert.edges) →
    ∀ acc, MidInv g sid u c p_u visited' used acc →
    MidInv g sid u c p_u visited' used (edges.foldl (relaxOne g u c) acc) := by
  intro edges
  induction edges with
  | nil =>
    intro _ acc h
    exact h
  | cons e rest ih =>
    intro hsub acc h
    have he : e ∈ vert.edges := hsub e (List.mem_cons_self e rest)
    have hsub' : ∀ x ∈ rest, x ∈ vert.edges :=
      fun x hx => hsub x (List.mem_cons_of_mem e hx)
    exact ih hsub' (relaxOne g u c acc e)
      (relaxOne_mid g sid u c p_u visited' used vert hwf hvx hpu hlen hbound e he acc h)

theorem heapGo_inv (g : Graph) (sid : VertexId) (cap : Nat)
    (hwf : WFGraph g) (hcap : cap * maxW g < U32MOD) :
    ∀ (fuel used : Nat) (st : HState), used + fuel ≤ cap →
    HInv g sid used st → HInv g sid (used + fuel) (heapGo fuel st) := by
  intro fuel
  induction fuel with
  | zero =>
    intro used st _ h
    simpa using h
  | succ f ih =>
    intro used st hle h
    show HInv g sid (used + (f + 1)) (heapGo (f + 1) st)
    unfold heapGo
    cases hp : popMin st.queue with
    | none => exact HInv_mono h (Nat.le_add_right _ _)
    | some pr =>
      obtain ⟨s0, q⟩ := pr
      by_cases hv : s0.vertex.id ∈ st.visited
      · simp only [hv, if_true]
        have h' : HInv g sid used { st with queue := q } :=
          { graph_eq := h.graph_eq
            dist_ok := h.dist_ok
            queue_lb := fun qe hqe => h.queue_lb qe (popMin_rest_subset hp qe hqe)
            queue_vx := fun qe hqe => h.queue_vx qe (popMin_rest_subset hp qe hqe)
            unvis := by
              intro v d p hvd hnv
              obtain ⟨qe, hqe, hqid, hqc⟩ := h.unvis v d p hvd hnv
              refine ⟨qe, ?_, hqid, hqc⟩
              rcases popMin_mem_or hp qe hqe with he | he
              · exfalso
                rw [he] at hqid
                rw [hqid] at hv
                exact hnv hv
              · exact he }
        have hrec := ih used { st with queue := q } (by omega) h'
        exact HInv_mono hrec (by omega)
      · simp only [hv, if_false]
        -- fresh pop of s0.vertex.id at cost s0.cost
        have hs0 : s0 ∈ st.queue := popMin_mem_self hp
        obtain ⟨d_u, p_u, hdu, hdle⟩ := h.queue_lb s0 hs0
        obtain ⟨qe, hqe, hqid, hqc⟩ := h.unvis s0.vertex.id d_u p_u hdu hv
        have hceq : s0.cost = d_u := by
          have h1 : s0.cost ≤ qe.cost := popMin_min hp qe hqe
          rw [hqc] at h1
          omega
        have hvert : alookup g.vertices s0.vertex.id = some s0.vertex :=
          h.queue_vx s0 hs0
        obtain ⟨hpu, hplen⟩ := h.dist_ok s0.vertex.id d_u p_u hdu
        have hbound : (used + 1) * maxW g < U32MOD := by
          have h1 : used + 1 ≤ cap := by omega
          calc (used + 1) * maxW g ≤ cap * maxW g :=
                Nat.mul_le_mul_right _ h1
          _ < U32MOD := hcap
        have hmid0 : MidInv g sid s0.vertex.id s0.cost p_u
            (s0.vertex.id :: st.visited) used (st.dist, q) :=
          { dist_ok := by
              intro v d p hvd
              obtain ⟨h1, h2⟩ := h.dist_ok v d p hvd
              exact ⟨h1, by omega⟩
            cur_stable := by
              rw [hceq]
              exact hdu
            queue_lb := fun qe2 hqe2 => h.queue_lb qe2 (popMin_rest_subset hp qe2 hqe2)
            queue_vx := fun qe2 hqe2 => h.queue_vx qe2 (popMin_rest_subset hp qe2 hqe2)
            unvis := by
              intro v d p hvd hnv
              have hnv' : v ∉ st.visited := fun hmem => hnv (List.mem_cons_of_mem _ hmem)
              have hne : v ≠ s0.vertex.id := fun he => hnv (he ▸ List.mem_cons_self _ _)
              obtain ⟨qe2, hqe2, hqid2, hqc2⟩ := h.unvis v d p hvd hnv'
              refine ⟨qe2, ?_, hqid2, hqc2⟩
              rcases popMin_mem_or hp qe2 hqe2 with he | he
              · exfalso
                rw [he] at hqid2
                exact hne hqid2.symm
              · exact he }
        have hpu' : EntryOk g sid s0.vertex.id s0.cost p_u := by
          rw [hceq]
          exact hpu
        have hlen' : p_u.length ≤ 1 + used := hplen
        have hmid := relaxFold_mid g sid s0.vertex.id s0.cost p_u
          (s0.vertex.id :: st.visited) used s0.vertex hwf hvert hpu'
          hlen' hbound s0.vertex.edges (fun e he => he) (st.dist, q) hmid0
        rw [show st.graph = g from h.graph_eq]
        have h' : HInv g sid (used + 1)
            { graph := g,
              queue := (relaxEdges g s0.vertex.id s0.cost s0.vertex.edges st.dist q).2,
              dist := (relaxEdges g s0.vertex.id s0.cost s0.vertex.edges st.dist q).1,
              visited := s0.vertex.id :: st.visited } :=
          { graph_eq := rfl
            dist_ok := by
              intro v d p hvd
              obtain ⟨h1, h2⟩ := hmid.dist_ok v d p hvd
              exact ⟨h1, by omega⟩
            queue_lb := hmid.queue_lb
            queue_vx := hmid.queue_vx
            unvis := hmid.unvis }
        have hrec := ih (used + 1) _ (by omega) h'
        exact HInv_mono hrec (by omega)

end DijkstraRs

namespace DijkstraRs

instance (g : Graph) : Decidable (WFGraph g) :=
  inferInstanceAs (Decidable (∀ p ∈ g.vertices, p.2.id = p.1))

/-- C7 (amended): for every well-formed graph that stores the start vertex
itself under its id, and whose run cannot overflow `u32` (the fuel bound
times the largest edge weight stays below 2^32), every entry (v, (d, p)) of
the heap algorithm's distance table has a path p that starts at the start
id, ends at v, follows consecutive stored edges of the graph, and the sum
of those edges' weights equals d. -/
theorem heap_paths_follow_graph (g : Graph) (s : Vertex)
    (hwf : WFGraph g)
    (hstart : alookup g.vertices s.id = some s)
    (hsmall : heapFuel g s * maxW g < U32MOD) :
    ∀ (v : VertexId) (d : Nat) (p : List VertexId),
      alookup (dijkstra_heap g s) v = some (d, p) →
      ∃ rest, p = s.id :: rest ∧ lastId s.id rest = v ∧ PathFrom g s.id d rest := by
  have hinit : HInv g s.id 0 (heapInit g s) :=
    { graph_eq := rfl
      dist_ok := by
        intro v d p hv
        simp only [heapInit, alookup] at hv
        by_cases h : s.id = v
        · rw [if_pos h] at hv
          obtain ⟨hd, hp⟩ := Prod.mk.injEq .. ▸ (Option.some_inj.mp hv)
          refine ⟨⟨[], ?_, ?_, ?_⟩, ?_⟩
          · rw [← hp]
          · exact h
          · rw [← hd]
            exact PathFrom.nil s.id
          · rw [← hp]
            simp
        · rw [if_neg h] at hv
          cases hv
      queue_lb := by
        intro qe hqe
        simp only [heapInit, List.mem_singleton] at hqe
        subst hqe
        refine ⟨0, [s.id], ?_, Nat.le_refl 0⟩
        simp [heapInit, alookup]
      queue_vx := by
        intro qe hqe
        simp only [heapInit, List.mem_singleton] at hqe
        subst hqe
        exact hstart
      unvis := by
        intro v d p hv _
        simp only [heapInit, alookup] at hv
        by_cases h : s.id = v
        · rw [if_pos h] at hv
          obtain ⟨hd, _⟩ := Prod.mk.injEq .. ▸ (Option.some_inj.mp hv)
          refine ⟨⟨0, s⟩, List.mem_singleton.mpr rfl, h, hd⟩
        · rw [if_neg h] at hv
          cases hv }
  intro v d p hv
  have hfin := heapGo_inv g s.id (heapFuel g s) hwf hsmall (heapFuel g s) 0
    (heapInit g s) (by omega) hinit
  exact (hfin.dist_ok v d p hv).1

/-- Witness for the amended C7: on the §8 graph started at A, the recorded
entry for D, (4, [a, b, c, d]), is certified by the theorem: the path starts
at a, ends at d, and follows stored edges summing to 4. -/
theorem heap_paths_follow_graph_witness :
    WFGraph g5 ∧ alookup g5.vertices vA.id = some vA ∧
    heapFuel g5 vA * maxW g5 < U32MOD ∧
    ∃ rest, (['a', 'b', 'c', 'd'] : List VertexId) = vA.id :: rest ∧
      lastId vA.id rest = 'd' ∧ PathFrom g5 vA.id 4 rest :=
  ⟨by decide, by decide, by decide,
   heap_paths_follow_graph g5 vA (by decide) (by decide) (by decide)
     'd' 4 ['a', 'b', 'c', 'd'] (by decide)⟩

end DijkstraRs

namespace DijkstraRs

/-! ### Edge-order independence of the scan variant -/

/-- Two scan distance tables are equal as finite maps. -/
def mapEq (d1 d2 : List (VertexId × Nat)) : Prop :=
  ∀ k, alookup d1 k = alookup d2 k

theorem mapEq_refl (d : List (VertexId × Nat)) : mapEq d d := fun _ => rfl

theorem mapEq_trans {d1 d2 d3 : List (VertexId × Nat)}
    (h1 : mapEq d1 d2) (h2 : mapEq d2 d3) : mapEq d1 d3 :=
  fun k => (h1 k).trans (h2 k)

theorem ainsert_mapEq {d1 d2 : List (VertexId × Nat)} (h : mapEq d1 d2)
    (k : VertexId) (v : Nat) : mapEq (ainsert d1 k v) (ainsert d2 k v) := by
  intro k'
  by_cases hk : k = k'
  · subst hk
    rw [alookup_ainsert_self, alookup_ainsert_self]
  · rw [alookup_ainsert_ne _ _ _ _ hk, alookup_ainsert_ne _ _ _ _ hk]
    exact h k'

theorem relaxScanOne_congr {d1 d2 : List (VertexId × Nat)} (h : mapEq d1 d2)
    (cd : Nat) (e : Edge) : mapEq (relaxScanOne d1 cd e) (relaxScanOne d2 cd e) := by
  unfold relaxScanOne
  rw [h e.«to»]
  by_cases hc : (cd + e.weight) % U32MOD < (alookup d2 e.«to»).getD U32MAX
  · rw [if_pos hc, if_pos hc]
    exact ainsert_mapEq h e.«to» _
  · rw [if_neg hc, if_neg hc]
    exact h

theorem relaxScanOne_comm (d : List (VertexId × Nat)) (cd : Nat) (e1 e2 : Edge) :
    mapEq (relaxScanOne (relaxScanOne d cd e1) cd e2)
      (relaxScanOne (relaxScanOne d cd e2) cd e1) := by
  by_cases hts : e1.«to» = e2.«to»
  · -- same target: the smaller candidate wins in either order
    set t := e1.«to» with ht
    set v1 := (cd + e1.weight) % U32MOD with hv1
    set v2 := (cd + e2.weight) % U32MOD with hv2
    intro k
    unfold relaxScanOne
    rw [← hv1, ← hv2, ← ht, ← hts]
    by_cases h1 : v1 < (alookup d t).getD U32MAX
    · rw [if_pos h1]
      by_cases h2 : v2 < (alookup d t).getD U32MAX
      · rw [if_pos h2]
        rw [alookup_ainsert_self, alookup_ainsert_self]
        simp only [Option.getD_some]
        by_cases h12 : v2 < v1
        · rw [if_pos h12]
          have : ¬ v1 < v2 := by omega
          rw [if_neg this]
          by_cases hk : t = k
          · subst hk
            rw [alookup_ainsert_self]
            rw [alookup_ainsert_self]
          · rw [alookup_ainsert_ne _ _ _ _ hk, alookup_ainsert_ne _ _ _ _ hk,
              alookup_ainsert_ne _ _ _ _ hk]
        · rw [if_neg h12]
          by_cases h21 : v1 < v2
          · rw [if_pos h21]
            by_cases hk : t = k
            · subst hk
              rw [alookup_ainsert_self, alookup_ainsert_self]
            · rw [alookup_ainsert_ne _ _ _ _ hk, alookup_ainsert_ne _ _ _ _ hk,
                alookup_ainsert_ne _ _ _ _ hk]
          · rw [if_neg h21]
            have hv : v1 = v2 := by omega
            rw [hv]
      · rw [if_neg h2]
        rw [alookup_ainsert_self]
        simp only [Option.getD_some]
        have h21 : ¬ v2 < v1 := by omega
        rw [if_neg h21, if_pos h1]
    · rw [if_neg h1]
      by_cases h2 : v2 < (alookup d t).getD U32MAX
      · rw [if_pos h2]
        rw [alookup_ainsert_self]
        simp only [Option.getD_some]
        have h12 : ¬ v1 < v2 := by omega
        rw [if_neg h12]
      · rw [if_neg h2, if_neg h1]
  · -- different targets: the two relaxations are independent
    intro k
    unfold relaxScanOne
    have hl1 : ∀ dd : List (VertexId × Nat),
        alookup (if (cd + e1.weight) % U32MOD < (alookup dd e1.«to»).getD U32MAX then
          ainsert dd e1.«to» ((cd + e1.weight) % U32MOD) else dd) e2.«to» =
        alookup dd e2.«to» := by
      intro dd
      by_cases hc : (cd + e1.weight) % U32MOD < (alookup dd e1.«to»).getD U32MAX
      · rw [if_pos hc, alookup_ainsert_ne _ _ _ _ hts]
      · rw [if_neg hc]
    have hl2 : ∀ dd : List (VertexId × Nat),
        alookup (if (cd + e2.weight) % U32MOD < (alookup dd e2.«to»).getD U32MAX then
          ainsert dd e2.«to» ((cd + e2.weight) % U32MOD) else dd) e1.«to» =
        alookup dd e1.«to» := by
      intro dd
      by_cases hc : (cd + e2.weight) % U32MOD < (alookup dd e2.«to»).getD U32MAX
      · rw [if_pos hc, alookup_ainsert_ne _ _ _ _ (fun h => hts h.symm)]
      · rw [if_neg hc]
    rw [hl1 d, hl2 d]
    by_cases h1 : (cd + e1.weight) % U32MOD < (alookup d e1.«to»).getD U32MAX
    · by_cases h2 : (cd + e2.weight) % U32MOD < (alookup d e2.«to»).getD U32MAX
      · simp only [if_pos h1, if_pos h2]
        by_cases hk1 : e1.«to» = k
        · subst hk1
          rw [alookup_ainsert_ne _ _ _ _ (fun h => hts h.symm),
            alookup_ainsert_self, alookup_ainsert_self]
        · by_cases hk2 : e2.«to» = k
          · subst hk2
            rw [alookup_ainsert_self, alookup_ainsert_ne _ _ _ _ hts,
              alookup_ainsert_self]
          · rw [alookup_ainsert_ne _ _ _ _ hk2, alookup_ainsert_ne _ _ _ _ hk1,
              alookup_ainsert_ne _ _ _ _ hk1, alookup_ainsert_ne _ _ _ _ hk2]
      · simp only [if_pos h1, if_neg h2]
    · by_cases h2 : (cd + e2.weight) % U32MOD < (alookup d e2.«to»).getD U32MAX
      · simp only [if_neg h1, if_pos h2]
      · simp only [if_neg h1, if_neg h2]

theorem foldl_relax_congr (cd : Nat) (l : List Edge) :
    ∀ {d1 d2 : List (VertexId × Nat)}, mapEq d1 d2 →
    mapEq (l.foldl (fun d e => relaxScanOne d cd e) d1)
      (l.foldl (fun d e => relaxScanOne d cd e) d2) := by
  induction l with
  | nil => intro d1 d2 h; exact h
  | cons e rest ih =>
    intro d1 d2 h
    exact ih (relaxScanOne_congr h cd e)

theorem foldl_relax_perm (cd : Nat) {l1 l2 : List Edge} (hp : l1.Perm l2) :
    ∀ {d1 d2 : List (VertexId × Nat)}, mapEq d1 d2 →
    mapEq (l1.foldl (fun d e => relaxScanOne d cd e) d1)
      (l2.foldl (fun d e => relaxScanOne d cd e) d2) := by
  induction hp with
  | nil => intro d1 d2 h; exact h
  | cons x _ ih =>
    intro d1 d2 h
    exact ih (relaxScanOne_congr h cd x)
  | swap x y l =>
    intro d1 d2 h
    simp only [List.foldl_cons]
    have h1 : mapEq (relaxScanOne (relaxScanOne d1 cd y) cd x)
        (relaxScanOne (relaxScanOne d2 cd x) cd y) :=
      mapEq_trans (relaxScanOne_congr (relaxScanOne_congr h cd y) cd x)
        (relaxScanOne_comm d2 cd y x)
    exact foldl_relax_congr cd l h1
  | trans _ _ ih1 ih2 =>
    intro d1 d2 h
    exact mapEq_trans (ih1 (mapEq_refl d1)) (ih2 h)

end DijkstraRs

namespace DijkstraRs

/-- Two vertices are equal up to a permutation of their edge lists. -/
def VertRel (v w : Vertex) : Prop := v.id = w.id ∧ v.edges.Perm w.edges

/-- Two stored vertex lists are pointwise equal up to edge-list permutation:
same keys in the same order, same vertex ids, permuted edge lists. -/
def VEquiv : List (VertexId × Vertex) → List (VertexId × Vertex) → Prop
  | [], [] => True
  | p :: l, q :: m => p.1 = q.1 ∧ VertRel p.2 q.2 ∧ VEquiv l m
  | _, _ => False

instance (v w : Vertex) : Decidable (VertRel v w) :=
  inferInstanceAs (Decidable (v.id = w.id ∧ v.edges.Perm w.edges))

def VEquiv.dec : ∀ (l m : List (VertexId × Vertex)), Decidable (VEquiv l m)
  | [], [] => .isTrue trivial
  | [], _ :: _ => .isFalse fun h => h
  | _ :: _, [] => .isFalse fun h => h
  | p :: l, q :: m =>
    haveI : Decidable (VEquiv l m) := VEquiv.dec l m
    inferInstanceAs (Decidable (p.1 = q.1 ∧ VertRel p.2 q.2 ∧ VEquiv l m))

instance (l m : List (VertexId × Vertex)) : Decidable (VEquiv l m) := VEquiv.dec l m

theorem VEquiv_length : ∀ {l m : List (VertexId × Vertex)}, VEquiv l m →
    l.length = m.length := by
  intro l
  induction l with
  | nil =>
    intro m h
    cases m with
    | nil => rfl
    | cons q m => exact absurd h (fun h => h)
  | cons p l ih =>
    intro m h
    cases m with
    | nil => exact absurd h (fun h => h)
    | cons q m =>
      obtain ⟨_, _, h3⟩ := h
      simp [List.length_cons, ih h3]

theorem VEquiv_filter (vis : List VertexId) :
    ∀ {l m : List (VertexId × Vertex)}, VEquiv l m →
    VEquiv (l.filter (fun p => ¬ p.2.id ∈ vis)) (m.filter (fun p => ¬ p.2.id ∈ vis)) := by
  intro l
  induction l with
  | nil =>
    intro m h
    cases m with
    | nil => exact trivial
    | cons q m => exact absurd h (fun h => h)
  | cons p l ih =>
    intro m h
    cases m with
    | nil => exact absurd h (fun h => h)
    | cons q m =>
      obtain ⟨h1, h2, h3⟩ := h
      simp only [List.filter_cons]
      rw [show q.2.id = p.2.id from h2.1.symm]
      by_cases hmem : p.2.id ∈ vis
      · simp only [hmem, not_true_eq_false, decide_False]
        exact ih h3
      · simp only [hmem, not_false_eq_true, decide_True]
        exact ⟨h1, h2, ih h3⟩

/-- Relation between the optional results of `minByDist`. -/
def OVertRel : Option Vertex → Option Vertex → Prop
  | none, none => True
  | some v, some w => VertRel v w
  | _, _ => False

theorem minByDist_congr {d1 d2 : List (VertexId × Nat)} (hd : mapEq d1 d2) :
    ∀ {l m : List (VertexId × Vertex)}, VEquiv l m →
    OVertRel (minByDist l d1) (minByDist m d2) := by
  intro l
  induction l with
  | nil =>
    intro m h
    cases m with
    | nil => exact trivial
    | cons q m => exact absurd h (fun h => h)
  | cons p l ih =>
    intro m h
    cases m with
    | nil => exact absurd h (fun h => h)
    | cons q m =>
      obtain ⟨_, h2, h3⟩ := h
      have hrec := ih h3
      unfold minByDist
      cases hr1 : minByDist l d1 with
      | none =>
        cases hr2 : minByDist m d2 with
        | none => exact h2
        | some w2 =>
          rw [hr1, hr2] at hrec
          exact absurd hrec (fun h => h)
      | some w1 =>
        cases hr2 : minByDist m d2 with
        | none =>
          rw [hr1, hr2] at hrec
          exact absurd hrec (fun h => h)
        | some w2 =>
          rw [hr1, hr2] at hrec
          dsimp only
          have hw : w1.id = w2.id := hrec.1
          have hkey : (alookup d1 p.2.id).getD U32MAX = (alookup d2 q.2.id).getD U32MAX := by
            rw [h2.1, hd q.2.id]
          have hkey2 : (alookup d1 w1.id).getD U32MAX = (alookup d2 w2.id).getD U32MAX := by
            rw [hw, hd w2.id]
          by_cases hle : (alookup d1 p.2.id).getD U32MAX ≤ (alookup d1 w1.id).getD U32MAX
          · have hle2 : (alookup d2 q.2.id).getD U32MAX ≤ (alookup d2 w2.id).getD U32MAX := by
              rw [← hkey, ← hkey2]
              exact hle
            rw [if_pos hle, if_pos hle2]
            exact h2
          · have hle2 : ¬ (alookup d2 q.2.id).getD U32MAX ≤ (alookup d2 w2.id).getD U32MAX := by
              rw [← hkey, ← hkey2]
              exact hle
            rw [if_neg hle, if_neg hle2]
            exact hrec

end DijkstraRs

namespace DijkstraRs

theorem scanGo_congr : ∀ (fuel : Nat) (st1 st2 : SState),
    VEquiv st1.graph.vertices st2.graph.vertices → mapEq st1.dist st2.dist →
    st1.visited = st2.visited → VertRel st1.current st2.current →
    mapEq (scanGo fuel st1).dist (scanGo fuel st2).dist := by
  intro fuel
  induction fuel with
  | zero =>
    intro st1 st2 _ hd _ _
    exact hd
  | succ f ih =>
    intro st1 st2 hg hd hv hc
    show mapEq (scanGo (f + 1) st1).dist (scanGo (f + 1) st2).dist
    unfold scanGo
    have hlen : st1.graph.vertices.length = st2.graph.vertices.length := VEquiv_length hg
    by_cases hcond : st1.visited.length < st1.graph.vertices.length
    · have hcond2 : st2.visited.length < st2.graph.vertices.length := by
        rw [← hlen, ← hv]
        exact hcond
      rw [if_pos hcond, if_pos hcond2]
      dsimp only
      have hvis : (if st1.current.id ∈ st1.visited then st1.visited
            else st1.current.id :: st1.visited) =
          (if st2.current.id ∈ st2.visited then st2.visited
            else st2.current.id :: st2.visited) := by
        rw [hc.1, hv]
      have hcd : (alookup st1.dist st1.current.id).getD U32MAX =
          (alookup st2.dist st2.current.id).getD U32MAX := by
        rw [hc.1, hd st2.current.id]
      have hdist' : mapEq
          (st1.current.edges.foldl
            (fun d e => relaxScanOne d ((alookup st1.dist st1.current.id).getD U32MAX) e)
            st1.dist)
          (st2.current.edges.foldl
            (fun d e => relaxScanOne d ((alookup st2.dist st2.current.id).getD U32MAX) e)
            st2.dist) := by
        rw [hcd]
        exact foldl_relax_perm _ hc.2 hd
      have hnext := minByDist_congr hdist'
        (VEquiv_filter (if st2.current.id ∈ st2.visited then st2.visited
            else st2.current.id :: st2.visited) hg)
      rw [show (if st1.current.id ∈ st1.visited then st1.visited
            else st1.current.id :: st1.visited) =
          (if st2.current.id ∈ st2.visited then st2.visited
            else st2.current.id :: st2.visited) from hvis]
      cases hn1 : nextVertex st1.graph
          (st1.current.edges.foldl
            (fun d e => relaxScanOne d ((alookup st1.dist st1.current.id).getD U32MAX) e)
            st1.dist)
          (if st2.current.id ∈ st2.visited then st2.visited
            else st2.current.id :: st2.visited) with
      | none =>
        cases hn2 : nextVertex st2.graph
            (st2.current.edges.foldl
              (fun d e => relaxScanOne d ((alookup st2.dist st2.current.id).getD U32MAX) e)
              st2.dist)
            (if st2.current.id ∈ st2.visited then st2.visited
              else st2.current.id :: st2.visited) with
        | none => exact hdist'
        | some w2 =>
          exfalso
          unfold nextVertex at hn1 hn2
          rw [hn1, hn2] at hnext
          exact hnext
      | some w1 =>
        cases hn2 : nextVertex st2.graph
            (st2.current.edges.foldl
              (fun d e => relaxScanOne d ((alookup st2.dist st2.current.id).getD U32MAX) e)
              st2.dist)
            (if st2.current.id ∈ st2.visited then st2.visited
              else st2.current.id :: st2.visited) with
        | none =>
          exfalso
          unfold nextVertex at hn1 hn2
          rw [hn1, hn2] at hnext
          exact hnext
        | some w2 =>
          have hw : VertRel w1 w2 := by
            unfold nextVertex at hn1 hn2
            rw [hn1, hn2] at hnext
            exact hnext
          exact ih _ _ hg hdist' rfl hw
    · have hcond2 : ¬ st2.visited.length < st2.graph.vertices.length := by
        rw [← hlen, ← hv]
        exact hcond
      rw [if_neg hcond, if_neg hcond2]
      exact hd

end DijkstraRs

namespace DijkstraRs

/-- C8 (amended): permuting the edge lists of stored vertices (and of the
start argument) leaves the linear-scan algorithm's result unchanged as a
distance map; the heap algorithm's final distance table is not in general
unchanged (with `u32` wraparound it can differ, see the counterexample). -/
theorem scan_result_edge_order_independent :
    ∀ (g1 g2 : Graph) (s1 s2 : Vertex),
      VEquiv g1.vertices g2.vertices → s1.id = s2.id → s1.edges.Perm s2.edges →
      ∀ k, alookup (dijkstra_no_heap g1 s1) k = alookup (dijkstra_no_heap g2 s2) k := by
  intro g1 g2 s1 s2 hg hid hes k
  have hfuel : scanFuel g1 = scanFuel g2 := by
    unfold scanFuel
    rw [VEquiv_length hg]
  have hd0 : mapEq (scanInit g1 s1).dist (scanInit g2 s2).dist := by
    intro k'
    show alookup [(s1.id, 0)] k' = alookup [(s2.id, 0)] k'
    rw [hid]
  have h := scanGo_congr (scanFuel g1) (scanInit g1 s1) (scanInit g2 s2) hg hd0 rfl
    ⟨hid, hes⟩
  unfold dijkstra_no_heap scanFinal
  rw [← hfuel]
  exact h k

/-- Witness for the amended C8: on the permuted pair `g8a`/`g8b`, the scan
results agree at v. -/
theorem scan_result_edge_order_independent_witness :
    VEquiv g8a.vertices g8b.vertices ∧ c8s1.id = c8s2.id ∧
    c8s1.edges.Perm c8s2.edges ∧
    alookup (dijkstra_no_heap g8a c8s1) 'v' = alookup (dijkstra_no_heap g8b c8s2) 'v' :=
  ⟨by decide, by decide, by decide,
   scan_result_edge_order_independent g8a g8b c8s1 c8s2 (by decide) (by decide)
     (by decide) 'v'⟩

end DijkstraRs
